import Mathlib

/-!
Shallow embedding of the Nublado coordination engine.

The definitions below are translated from the JavaScript sources:
  - src/agents/orchestrator_controller.js  (namespace OC: dependency resolver,
    dispatcher, agent selector, dynamic agent creation)
  - src/orchestrator/master-orchestrator.js (namespace MO: agent scoring and
    selection, task assignment, failure/retry bookkeeping, conflict resolution)
  - src/agents/base_agent.js               (namespace BA: per-agent performance
    counters)

JavaScript numbers are modelled as Rat (for running averages) or Int/Nat
(for scores, priorities and counters); a field that can be undefined is an
Option; JavaScript Set objects are lists to which only fresh elements are
ever added.
-/

namespace Nublado

/-! ## Conflict resolver (master-orchestrator.js, resolveConflict) -/

/-- Translation of resolveConflict in master-orchestrator.js: the strategy is
the string "ours" when the party priority (agent.protocols.priority) is
strictly greater than the hard-coded threshold 7, and "theirs" otherwise. -/

def resolveConflict (partyPriority : Int) : String :=
  if partyPriority > 7 then "ours" else "theirs"

/-! ## BaseAgent performance counters (base_agent.js) -/

/-- The performance record of base_agent.js (constructor lines): counters
start at zero.  successRate and startTime are not modelled (no claim touches
them). -/

structure Performance where
  tasksCompleted : Nat
  tasksSuccessful : Nat
  tasksFailed : Nat
  avgExecutionTime : Rat
  deriving DecidableEq

/-- Initial performance record of a freshly constructed BaseAgent. -/

def initialPerformance : Performance :=
  { tasksCompleted := 0, tasksSuccessful := 0, tasksFailed := 0, avgExecutionTime := 0 }

/-- Translation of BaseAgent.updatePerformance: tasksCompleted is incremented
on every call (success and failure alike), the matching success/failure
counter is incremented, and avgExecutionTime becomes
(avg * (n - 1) + executionTime) / n for the new count n. -/

def updatePerformance (p : Performance) (executionTime : Rat) (success : Bool) : Performance :=
  let n : Nat := p.tasksCompleted + 1
  { tasksCompleted := n
    tasksSuccessful := if success then p.tasksSuccessful + 1 else p.tasksSuccessful
    tasksFailed := if success then p.tasksFailed else p.tasksFailed + 1
    avgExecutionTime := (p.avgExecutionTime * ((n : Rat) - 1) + executionTime) / (n : Rat) }

/-- Translation of the capacity guard at the top of BaseAgent.executeTask:
when activeTasks.size has reached maxConcurrentTasks the task is rejected
without touching the performance record; otherwise exactly one
updatePerformance call happens, on the success and on the failure path
alike. -/

def executeTaskPerf (p : Performance) (activeTasks maxConcurrentTasks : Nat)
    (executionTime : Rat) (success : Bool) : Performance :=
  if activeTasks ≥ maxConcurrentTasks then p else updatePerformance p executionTime success

/-- Folding a sequence of executed attempts (execution time, success flag)
through updatePerformance, as BaseAgent does over its lifetime. -/

def runAttempts (samples : List (Rat × Bool)) (p : Performance) : Performance :=
  samples.foldl (fun q s => updatePerformance q s.1 s.2) p

/-! ## Dispatcher (orchestrator_controller.js, executeParallelTasks) -/

/-- A settled promise outcome, as produced by Promise.allSettled: one entry
per promise, either fulfilled with a value or rejected with an error
message.  A rejection never removes or aborts sibling entries. -/

inductive SettledResult (α : Type) where
  | fulfilled (value : α)
  | rejected (error : String)
  deriving DecidableEq

/-- Translation of the batching loop of executeParallelTasks: the for-loop
with step maxParallel takes consecutive slices tasks.slice(i, i + maxParallel).
The source loops forever when maxParallel = 0 (i never advances); that case
is mapped to an empty batch list and excluded by the claims' hypothesis
maxParallel ≥ 1. -/

def chunkTasks {α : Type} : Nat → List α → List (List α)
  | 0, _ => []
  | _, [] => []
  | m + 1, t :: ts =>
    (t :: ts).take (m + 1) :: chunkTasks (m + 1) ((t :: ts).drop (m + 1))
termination_by _ ts => ts.length
decreasing_by
  simp only [List.drop_succ_cons, List.length_drop, List.length_cons]
  omega

/-- Translation of executeParallelTasks: each batch is executed by mapping
the per-task execution over it (Promise.allSettled gives one settled result
per task, in order), the batch is awaited in full, and its results are
appended to the accumulated results before the next batch starts.  The
per-task execution this.executeTask is abstracted by exec, which may settle
as fulfilled or rejected. -/

def executeParallelTasks {α β : Type} (maxParallel : Nat) (exec : α → SettledResult β)
    (tasks : List α) : List (SettledResult β) :=
  (chunkTasks maxParallel tasks).foldl (fun results batch => results ++ batch.map exec) []

/-- Character-level check that the first list starts with the second list. -/

def startsWithChars : List Char → List Char → Bool
  | _, [] => true
  | [], _ :: _ => false
  | a :: as, b :: bs => a == b && startsWithChars as bs

/-- Character-level substring check: needle occurs contiguously in the
haystack. -/

def containsChars (haystack needle : List Char) : Bool :=
  match haystack with
  | [] => needle.isEmpty
  | _ :: rest => startsWithChars haystack needle || containsChars rest needle

/-- JavaScript String.prototype.includes: substring containment. -/

def jsIncludes (s sub : String) : Bool :=
  containsChars s.toList sub.toList

/-- An agent record as built by MasterOrchestrator.createAgent: id, role,
specialization.primary (capability strings), protocols.priority and the
status string ("idle" or "working").  Fields no claim touches (name, branch,
permissions, worker, currentTask) are omitted. -/

structure MOAgent where
  id : String
  role : String
  primary : List String
  priority : Int
  status : String
  deriving DecidableEq

/-- A task as passed to MasterOrchestrator.assignTask.  type and
requiredCapabilities may be absent (undefined); retries is absent until the
first re-enqueue writes it; excludeAgents is absent-or-a-list, modelled as a
list that starts empty. -/

structure MOTask where
  name : String
  type : Option String
  requiredCapabilities : Option (List String)
  retries : Option Nat
  excludeAgents : List String
  deriving DecidableEq

/-- The capability part of the score in selectBestAgent: ten points per
required capability req such that some agent capability cap satisfies
cap.includes(req) or req.includes(cap); zero when requiredCapabilities is
undefined. -/

def capabilityScore (rc : Option (List String)) (capabilities : List String) : Int :=
  match rc with
  | none => 0
  | some reqs =>
    10 * (reqs.filter (fun req =>
      capabilities.any (fun cap => jsIncludes cap req || jsIncludes req cap))).length

/-- The task-type part of the score: five points when task.type is present
and agent.role.toLowerCase() contains task.type.toLowerCase(). -/

def typeScore (ty : Option String) (role : String) : Int :=
  match ty with
  | none => 0
  | some t => if jsIncludes role.toLower t.toLower then 5 else 0

/-- The full compatibility score of selectBestAgent in
master-orchestrator.js: capability matches, task-type alignment, the
agent's configured priority, and +3 when the agent is idle.  Note the
excludeAgents list of the task plays no part. -/

def scoreAgent (task : MOTask) (agent : MOAgent) : Int :=
  capabilityScore task.requiredCapabilities agent.primary
    + typeScore task.type agent.role
    + agent.priority
    + (if agent.status = "idle" then 3 else 0)

/-- Translation of MasterOrchestrator.selectBestAgent: iterate over the
agents in registration order, keeping the first agent whose score strictly
exceeds the best score so far, starting from bestScore = 0 and
bestAgent = null. -/

def selectBestAgentMO (agents : List MOAgent) (task : MOTask) : Option MOAgent :=
  (agents.foldl
    (fun best a =>
      let s := scoreAgent task a
      if s > best.2 then (some a, s) else best)
    ((none : Option MOAgent), (0 : Int))).1

/-- Outcome of MasterOrchestrator.assignTask: no suitable agent at all, task
pushed back onto the queue because the selected agent is not idle, or task
assigned to the selected agent (which the source then marks as working). -/

inductive AssignOutcome where
  | noAgent
  | queued
  | assigned (a : MOAgent)
  deriving DecidableEq

/-- Translation of MasterOrchestrator.assignTask: select an agent; when none
is found return null; when the selected agent's status is not idle, queue
the task; otherwise assign it. -/

def assignTask (agents : List MOAgent) (task : MOTask) : AssignOutcome :=
  match selectBestAgentMO agents task with
  | none => AssignOutcome.noAgent
  | some a => if a.status ≠ "idle" then AssignOutcome.queued else AssignOutcome.assigned a

/-- Translation of the retry guard in MasterOrchestrator.handleTaskFailure:
the JavaScript comparison task.retries < 3 is false when retries is
undefined (undefined < 3 evaluates to false), so a task that has never been
re-enqueued is not retried. -/

def retryGuard : Option Nat → Bool
  | none => false
  | some r => decide (r < 3)

/-- Per-agent failure counters of the performanceMetrics map (only the
fields handleTaskFailure touches). -/

structure MOMetrics where
  tasksCompleted : Nat
  tasksFailed : Nat
  deriving DecidableEq

/-- Translation of MasterOrchestrator.handleTaskFailure: increment the
agent's tasksFailed counter and, when the retry guard passes, unshift onto
the queue a copy of the task with retries bumped and the failing agent's id
appended to excludeAgents; otherwise leave the queue unchanged (the task is
terminally failed, surfaced only through the task:failed event). -/

def handleTaskFailure (metrics : MOMetrics) (task : MOTask) (agentId : String)
    (queue : List MOTask) : MOMetrics × List MOTask :=
  ({ metrics with tasksFailed := metrics.tasksFailed + 1 },
    if retryGuard task.retries then
      { task with retries := some (task.retries.getD 0 + 1),
                  excludeAgents := task.excludeAgents ++ [agentId] } :: queue
    else queue)

/-- A busy (working) agent used to settle C5: priority 5, no capabilities. -/

def busyAgent : MOAgent :=
  { id := "a1", role := "developer", primary := [], priority := 5, status := "working" }

/-- An idle agent with the same configuration. -/

def idleAgent : MOAgent :=
  { id := "a1", role := "developer", primary := [], priority := 5, status := "idle" }

/-- A plain task without type or capability requirements. -/

def plainTask : MOTask :=
  { name := "t", type := none, requiredCapabilities := none, retries := none,
    excludeAgents := [] }

/-- The same task after one recorded failure on agent a1: one retry consumed
and a1 in excludeAgents. -/

def retriedTask : MOTask :=
  { name := "t", type := none, requiredCapabilities := none, retries := some 1,
    excludeAgents := ["a1"] }

/-- An agent record as built by
OrchestratorController.createDynamicAgent: id agent_N, name, type,
capability list, status (created idle) and the performance fields the
selector reads.  created, tasks and successRate are omitted (no claim
touches them). -/

structure OCAgent where
  id : String
  name : String
  type : String
  capabilities : List String
  status : String
  tasksCompleted : Nat
  avgExecutionTime : Rat
  deriving DecidableEq

/-- A task as consumed by the controller's selectBestAgent:
requiredCapabilities may be absent (undefined). -/

structure OCTask where
  name : String
  requiredCapabilities : Option (List String)
  deriving DecidableEq

/-- Translation of OrchestratorController.createDynamicAgent: the new agent
gets id agent_N from the counter, the given name, type and capability list,
status idle, and zeroed performance counters. -/

def createDynamicAgent (counter : Nat) (name ty : String)
    (capabilities : List String) : OCAgent :=
  { id := "agent_" ++ toString counter, name := name, type := ty,
    capabilities := capabilities, status := "idle",
    tasksCompleted := 0, avgExecutionTime := 0 }

/-- Capability compatibility in the controller's selectBestAgent: an absent
requiredCapabilities matches every agent; otherwise every required
capability must be contained in the agent's capability list (an empty
required list therefore also matches every agent). -/

def capCompatible (rc : Option (List String)) (agent : OCAgent) : Bool :=
  match rc with
  | none => true
  | some reqs => reqs.all (fun cap => agent.capabilities.contains cap)

/-- Translation of the reduce over compatibleAgents: keep the agent with the
strictly smaller avgExecutionTime, the earlier agent on ties. -/

def pickFastest (best : OCAgent) : List OCAgent → OCAgent
  | [] => best
  | a :: rest =>
    pickFastest (if a.avgExecutionTime < best.avgExecutionTime then a else best) rest

/-- The capability list given to a spawned agent:
task.requiredCapabilities || ['general'] in JavaScript — the fallback
applies only when the field is undefined, because an empty array is truthy. -/

def spawnCapabilities (rc : Option (List String)) : List String :=
  rc.getD ["general"]

/-- Translation of OrchestratorController.selectBestAgent: filter the
registry down to idle agents; when none exist, spawn a Worker with the
task's required capabilities (or the general fallback); when idle agents
exist but none is capability-compatible, spawn a Specialist the same way;
otherwise return the compatible idle agent with the lowest average
execution time. -/

def selectBestAgentOC (agents : List OCAgent) (counter : Nat) (task : OCTask) : OCAgent :=
  let availableAgents := agents.filter (fun a => a.status == "idle")
  match availableAgents with
  | [] =>
    createDynamicAgent counter ("Worker-" ++ toString counter) "worker"
      (spawnCapabilities task.requiredCapabilities)
  | c :: cs =>
    match (c :: cs).filter (fun a => capCompatible task.requiredCapabilities a) with
    | [] =>
      createDynamicAgent counter ("Specialist-" ++ toString counter) "specialist"
        (spawnCapabilities task.requiredCapabilities)
    | d :: ds => pickFastest d ds

/-- A task as consumed by buildExecutionPlan.  Only the key fields matter:
the task is identified by task.id || task.name (id may be absent). -/

structure Task where
  id : Option String
  name : String
  deriving DecidableEq

/-- The identifier used throughout buildExecutionPlan: task.id || task.name. -/

def taskKey (t : Task) : String := t.id.getD t.name

/-- One scan of the inner for-loop of buildExecutionPlan: walk the task list
in order; skip a task whose key is already completed or already added in
this scan (inProgress); add a task all of whose dependencies are completed,
recording its key in inProgress.  dependencies is the map
dependencies[taskId] || [] and completed the accumulated set of placed
keys. -/

def scanPhase (deps : String → List String) (completed : List String) :
    List Task → List String → List Task
  | [], _ => []
  | t :: ts, inProgress =>
    if taskKey t ∈ completed ∨ taskKey t ∈ inProgress then
      scanPhase deps completed ts inProgress
    else if ∀ d ∈ deps (taskKey t), d ∈ completed then
      t :: scanPhase deps completed ts (taskKey t :: inProgress)
    else
      scanPhase deps completed ts inProgress

/-- Stable insertion of a task into a list sorted by descending priority:
the task goes in front of the first entry whose priority it reaches,
after every entry with a strictly greater priority. -/

def insertByPriority (pri : String → Int) (t : Task) : List Task → List Task
  | [] => [t]
  | u :: us =>
    if pri (taskKey t) ≥ pri (taskKey u) then t :: u :: us
    else u :: insertByPriority pri t us

/-- The phase sort of buildExecutionPlan:
phase.sort((a, b) => (priority[keyB] || 0) - (priority[keyA] || 0)).
JavaScript's Array.prototype.sort is stable, and a stable sort by
descending priority is exactly stable insertion sort with this insert. -/

def sortByPriorityDesc (pri : String → Int) : List Task → List Task
  | [] => []
  | t :: ts => insertByPriority pri t (sortByPriorityDesc pri ts)

/-- The while-loop of buildExecutionPlan, with the number of remaining
iterations made explicit: the loop runs while completed.size is below the
task count, breaks (returning the phases built so far, without any error)
when a scan adds no task, sorts each phase by descending priority, and adds
the phase keys to completed.  Every iteration that does not break places at
least one task, so tasks.length iterations always suffice: the fuel variant
is extensionally the source loop. -/

def buildPhasesAux (deps : String → List String) (pri : String → Int) (tasks : List Task) :
    Nat → List String → List (List Task)
  | 0, _ => []
  | fuel + 1, completed =>
    if tasks.length ≤ completed.length then []
    else
      match scanPhase deps completed tasks [] with
      | [] => []
      | t :: ts =>
        let sorted := sortByPriorityDesc pri (t :: ts)
        sorted :: buildPhasesAux deps pri tasks fuel (completed ++ sorted.map taskKey)

/-- Translation of buildExecutionPlan, returning plan.phases (the
estimatedTime and requiredAgents fields of the returned plan object are
derived data no claim mentions). -/

def buildExecutionPlan (tasks : List Task) (deps : String → List String)
    (pri : String → Int) : List (List Task) :=
  buildPhasesAux deps pri tasks tasks.length []

/-- Task T1 of the spec scenarios. -/

def taskT1 : Task := { id := some "T1", name := "T1" }

/-- Task T2 of the spec scenarios. -/

def taskT2 : Task := { id := some "T2", name := "T2" }

/-- Task T3 of the spec scenarios. -/

def taskT3 : Task := { id := some "T3", name := "T3" }

/-- Scenario A dependency map: T2 depends on T1, nothing else. -/

def depsA : String → List String :=
  fun k => if k = "T2" then ["T1"] else []

/-- Scenario A priorities: T1 and T2 at 5, T3 at 9. -/

def priA : String → Int :=
  fun k => if k = "T3" then 9 else if k = "T1" then 5 else if k = "T2" then 5 else 0

/-- Scenario B dependency map: the cycle T1 -> T2 -> T1. -/

def depsB : String → List String :=
  fun k => if k = "T1" then ["T2"] else if k = "T2" then ["T1"] else []

/-- The empty priority map (priority[k] || 0 gives 0 everywhere). -/

def priZero : String → Int := fun _ => 0

/-! ## Master orchestrator (master-orchestrator.js) -/

/-! ## Controller agent selection (orchestrator_controller.js) -/

/-! ## Dependency resolver (orchestrator_controller.js, buildExecutionPlan) -/

/-! ## Lemmas and claim theorems -/

lemma chunkTasks_length_le {α : Type} :
    ∀ (m : Nat) (tasks : List α), ∀ b ∈ chunkTasks m tasks, b.length ≤ m := by
  intro m tasks
  induction m, tasks using chunkTasks.induct with
  | case1 ts =>
    intro b hb
    rw [chunkTasks] at hb
    exact absurd hb (List.not_mem_nil b)
  | case2 m hm =>
    obtain ⟨m', rfl⟩ := Nat.exists_eq_succ_of_ne_zero hm
    intro b hb
    simp [chunkTasks] at hb
  | case3 m t ts ih =>
    intro b hb
    rw [chunkTasks] at hb
    rcases List.mem_cons.mp hb with hb | hb
    · subst hb
      exact List.length_take_le (m + 1) (t :: ts)
    · exact ih b hb

lemma chunkTasks_flatten {α : Type} :
    ∀ (m : Nat) (tasks : List α), m ≠ 0 → (chunkTasks m tasks).flatten = tasks := by
  intro m tasks
  induction m, tasks using chunkTasks.induct with
  | case1 ts =>
    intro hm
    exact absurd rfl hm
  | case2 m hm =>
    intro _
    obtain ⟨m', rfl⟩ := Nat.exists_eq_succ_of_ne_zero hm
    simp [chunkTasks]
  | case3 m t ts ih =>
    intro _
    rw [chunkTasks]
    simp only [List.flatten_cons, ih (by omega), List.take_append_drop]

lemma foldl_append_map {α β : Type} (f : α → β) :
    ∀ (chunks : List (List α)) (acc : List β),
      chunks.foldl (fun results batch => results ++ batch.map f) acc
        = acc ++ (chunks.flatten).map f := by
  intro chunks
  induction chunks with
  | nil => intro acc; simp
  | cons c cs ih =>
    intro acc
    simp only [List.foldl_cons, ih, List.flatten_cons, List.map_append, List.append_assoc]

/-- C6: for maxParallel ≥ 1, the dispatcher splits the task list into
consecutive batches whose concatenation is exactly the input task list and
whose sizes never exceed maxParallel; batches are folded strictly one after
the other (the fold in executeParallelTasks), so at most maxParallel tasks
of one batch are ever in flight together. -/
theorem executeParallelTasks_batches_bounded {α : Type} (m : Nat) (tasks : List α)
    (hm : 1 ≤ m) :
    (∀ b ∈ chunkTasks m tasks, b.length ≤ m) ∧ (chunkTasks m tasks).flatten = tasks := by
  exact ⟨chunkTasks_length_le m tasks, chunkTasks_flatten m tasks (Nat.one_le_iff_ne_zero.mp hm)⟩

/-- Witness for the batching theorem at maxParallel = 2 over five tasks. -/
theorem executeParallelTasks_batches_bounded_witness :
    (1 : Nat) ≤ 2 ∧
    ((∀ b ∈ chunkTasks 2 [10, 20, 30, 40, 50], b.length ≤ 2) ∧
      (chunkTasks 2 [10, 20, 30, 40, 50]).flatten = [10, 20, 30, 40, 50]) :=
  ⟨by decide, executeParallelTasks_batches_bounded 2 [10, 20, 30, 40, 50] (by decide)⟩

/-- C7: for maxParallel ≥ 1 the dispatcher returns exactly one settled
outcome per input task, in input order: the result list is the pointwise
image of the task list under the per-task execution, so a rejected task
never suppresses a sibling outcome and no result is dropped. -/
theorem executeParallelTasks_one_outcome_per_task {α β : Type} (m : Nat)
    (exec : α → SettledResult β) (tasks : List α) (hm : 1 ≤ m) :
    executeParallelTasks m exec tasks = tasks.map exec ∧
    (executeParallelTasks m exec tasks).length = tasks.length := by
  have h : executeParallelTasks m exec tasks = tasks.map exec := by
    rw [executeParallelTasks, foldl_append_map,
      chunkTasks_flatten m tasks (Nat.one_le_iff_ne_zero.mp hm)]
    rfl
  exact ⟨h, by rw [h, List.length_map]⟩

/-- Witness for the one-outcome-per-task theorem: three tasks, one of which
is rejected, under maxParallel = 2; the rejection does not remove the
sibling outcomes. -/
theorem executeParallelTasks_one_outcome_per_task_witness :
    (1 : Nat) ≤ 2 ∧
    (executeParallelTasks 2
        (fun n : Nat => if n = 20 then SettledResult.rejected "boom"
          else SettledResult.fulfilled n) [10, 20, 30]
      = [SettledResult.fulfilled 10, SettledResult.rejected "boom",
          SettledResult.fulfilled 30] ∧
      (executeParallelTasks 2
        (fun n : Nat => if n = 20 then SettledResult.rejected "boom"
          else SettledResult.fulfilled n) [10, 20, 30]).length = 3) := by
  refine ⟨by decide, ?_⟩
  have h := executeParallelTasks_one_outcome_per_task 2
    (fun n : Nat => if n = 20 then SettledResult.rejected "boom"
      else SettledResult.fulfilled n) [10, 20, 30] (by decide)
  exact ⟨by rw [h.1]; decide, by rw [h.2]; rfl⟩

/-- C5 counterexample: master-orchestrator's selectBestAgent returns an
agent whose status is "working", not idle — a single registered working
agent of priority 5 scores 5 > 0 and is returned for a plain task. -/
theorem selectBestAgent_busy_counterexample :
    selectBestAgentMO [busyAgent] plainTask = some busyAgent ∧
    busyAgent.status ≠ "idle" := by
  constructor
  · rfl
  · decide

/-- C3 as a statement about the source: the code diverges from the claim in
two ways.  A task that has never been re-enqueued carries no retries field,
the JavaScript guard task.retries < 3 is then false, and the task is NOT
re-enqueued even though its retry count (zero failures so far) is below the
limit of 3; and selection never consults excludeAgents, so a re-enqueued
task that already failed on agent a1 is assigned to a1 again when a1 is the
only (or best-scoring) agent. -/
theorem handleTaskFailure_no_retry_and_no_exclusion :
    (handleTaskFailure ⟨0, 0⟩ plainTask "a1" []).2 = [] ∧
    retryGuard plainTask.retries = false ∧
    selectBestAgentMO [idleAgent] retriedTask = some idleAgent ∧
    idleAgent.id ∈ retriedTask.excludeAgents ∧
    assignTask [idleAgent] retriedTask = AssignOutcome.assigned idleAgent := by
  refine ⟨rfl, rfl, rfl, ?_, rfl⟩
  decide

lemma pickFastest_mem (best : OCAgent) :
    ∀ rest : List OCAgent, pickFastest best rest = best ∨ pickFastest best rest ∈ rest := by
  intro rest
  induction rest generalizing best with
  | nil => exact Or.inl rfl
  | cons a rest ih =>
    rw [pickFastest]
    by_cases hc : a.avgExecutionTime < best.avgExecutionTime
    · rw [if_pos hc]
      rcases ih a with h | h
      · rw [h]
        exact Or.inr (List.mem_cons_self a rest)
      · exact Or.inr (List.mem_cons_of_mem a h)
    · rw [if_neg hc]
      rcases ih best with h | h
      · exact Or.inl h
      · exact Or.inr (List.mem_cons_of_mem a h)

lemma selectBestAgentOC_status (agents : List OCAgent) (counter : Nat) (task : OCTask) :
    (selectBestAgentOC agents counter task).status = "idle" := by
  rw [selectBestAgentOC]
  cases hav : agents.filter (fun a => a.status == "idle") with
  | nil => rfl
  | cons c cs =>
    simp only
    cases hcm : (c :: cs).filter (fun a => capCompatible task.requiredCapabilities a) with
    | nil => rfl
    | cons d ds =>
      simp only
      have hmem : pickFastest d ds ∈ d :: ds := by
        rcases pickFastest_mem d ds with h | h
        · rw [h]
          exact List.mem_cons_self d ds
        · exact List.mem_cons_of_mem d h
      have hsub : pickFastest d ds ∈ agents.filter (fun a => a.status == "idle") := by
        rw [hav]
        have := hcm ▸ hmem
        exact List.mem_of_mem_filter this
      have := List.of_mem_filter hsub
      simpa using this

/-- C5 amended theorem: the controller's selectBestAgent always returns an
idle agent (filtered pre-existing agents and freshly spawned agents are all
idle); the master orchestrator's selectBestAgent may return a busy agent
(see the counterexample), but its caller assignTask dispatches a task only
when the selected agent's status is idle, queueing the task otherwise. -/
theorem selector_idle_amended :
    (∀ (agents : List OCAgent) (counter : Nat) (task : OCTask),
      (selectBestAgentOC agents counter task).status = "idle") ∧
    (∀ (agents : List MOAgent) (task : MOTask) (a : MOAgent),
      assignTask agents task = AssignOutcome.assigned a → a.status = "idle") := by
  constructor
  · exact selectBestAgentOC_status
  · intro agents task a h
    rw [assignTask] at h
    cases hsel : selectBestAgentMO agents task with
    | none => simp [hsel] at h
    | some b =>
      simp only [hsel] at h
      by_cases hb : b.status = "idle"
      · rw [if_neg (fun hcon => hcon hb)] at h
        simp only [AssignOutcome.assigned.injEq] at h
        subst h
        exact hb
      · rw [if_pos hb] at h
        exact absurd h (by simp)

/-- Witness for the amended selector theorem: a concrete registry for each
conjunct. -/
theorem selector_idle_amended_witness :
    (selectBestAgentOC [] 1 { name := "t", requiredCapabilities := none }).status = "idle" ∧
    (assignTask [idleAgent] plainTask = AssignOutcome.assigned idleAgent ∧
      idleAgent.status = "idle") :=
  ⟨selector_idle_amended.1 [] 1 { name := "t", requiredCapabilities := none },
    ⟨by rfl, selector_idle_amended.2 [idleAgent] plainTask idleAgent (by rfl)⟩⟩

/-- C9 counterexample: a task whose required capability set is present but
EMPTY (as produced by createTask's default requiredCapabilities = []) is
spawned an agent with an empty capability set, not the generic fallback:
[] is truthy in JavaScript, so task.requiredCapabilities || ['general']
evaluates to []. -/
theorem spawn_empty_caps_counterexample :
    (selectBestAgentOC [] 1
        { name := "t", requiredCapabilities := some [] }).capabilities = [] ∧
    (selectBestAgentOC [] 1
        { name := "t", requiredCapabilities := some [] }).capabilities ≠ ["general"] := by
  exact ⟨rfl, by decide⟩

/-- C9 amended theorem: whenever no idle agent satisfies the required
capabilities, the controller's selectBestAgent returns a freshly spawned
idle agent (id agent_N from the counter) whose capability set is exactly
task.requiredCapabilities when the field is present — including the empty
set — and the generic fallback ["general"] only when the field is absent;
the selector is total, so a task is never failed for lack of a
pre-provisioned agent. -/
theorem selectBestAgent_spawn_caps (agents : List OCAgent) (counter : Nat) (task : OCTask)
    (h : ∀ a ∈ agents, a.status = "idle" → capCompatible task.requiredCapabilities a = false) :
    (selectBestAgentOC agents counter task).capabilities
        = spawnCapabilities task.requiredCapabilities ∧
    (selectBestAgentOC agents counter task).id = "agent_" ++ toString counter ∧
    (selectBestAgentOC agents counter task).status = "idle" := by
  rw [selectBestAgentOC]
  cases hav : agents.filter (fun a => a.status == "idle") with
  | nil => exact ⟨rfl, rfl, rfl⟩
  | cons c cs =>
    have hfe : (c :: cs).filter (fun a => capCompatible task.requiredCapabilities a) = [] := by
      rw [List.filter_eq_nil_iff]
      intro a ha
      have hmem : a ∈ agents.filter (fun b => b.status == "idle") := hav ▸ ha
      have h1 : a ∈ agents := List.mem_of_mem_filter hmem
      have h2 : a.status = "idle" := by simpa using List.of_mem_filter hmem
      simp [h a h1 h2]
    simp only [hfe]
    exact ⟨rfl, rfl, rfl⟩

/-- Witness for the amended spawn theorem: scenario C — a task requiring
capability render with an empty registry is given a fresh idle agent with
capability set exactly render. -/
theorem selectBestAgent_spawn_caps_witness :
    (∀ a ∈ ([] : List OCAgent), a.status = "idle" →
      capCompatible (some ["render"]) a = false) ∧
    ((selectBestAgentOC [] 7 { name := "r", requiredCapabilities := some ["render"] }).capabilities
        = spawnCapabilities (some ["render"]) ∧
      (selectBestAgentOC [] 7
          { name := "r", requiredCapabilities := some ["render"] }).id = "agent_" ++ toString 7 ∧
      (selectBestAgentOC [] 7
          { name := "r", requiredCapabilities := some ["render"] }).status = "idle") :=
  ⟨by intro a ha; exact absurd ha (List.not_mem_nil a),
    selectBestAgent_spawn_caps [] 7 { name := "r", requiredCapabilities := some ["render"] }
      (by intro a ha; exact absurd ha (List.not_mem_nil a))⟩

lemma insertByPriority_perm (pri : String → Int) (t : Task) :
    ∀ l : List Task, (insertByPriority pri t l).Perm (t :: l) := by
  intro l
  induction l with
  | nil => exact List.Perm.refl _
  | cons u us ih =>
    rw [insertByPriority]
    by_cases hc : pri (taskKey t) ≥ pri (taskKey u)
    · rw [if_pos hc]
    · rw [if_neg hc]
      exact (List.Perm.cons u ih).trans (List.Perm.swap t u us)

lemma sortByPriorityDesc_perm (pri : String → Int) :
    ∀ l : List Task, (sortByPriorityDesc pri l).Perm l := by
  intro l
  induction l with
  | nil => exact List.Perm.refl _
  | cons t ts ih =>
    exact (insertByPriority_perm pri t (sortByPriorityDesc pri ts)).trans (List.Perm.cons t ih)

lemma mem_insertByPriority (pri : String → Int) (t x : Task) (l : List Task) :
    x ∈ insertByPriority pri t l ↔ x = t ∨ x ∈ l := by
  rw [(insertByPriority_perm pri t l).mem_iff, List.mem_cons]

lemma insertByPriority_pairwise (pri : String → Int) (t : Task) (l : List Task)
    (hl : l.Pairwise (fun a b => pri (taskKey b) ≤ pri (taskKey a))) :
    (insertByPriority pri t l).Pairwise (fun a b => pri (taskKey b) ≤ pri (taskKey a)) := by
  induction l with
  | nil => exact List.pairwise_singleton _ t
  | cons u us ih =>
    rw [insertByPriority]
    rcases List.pairwise_cons.mp hl with ⟨hu, hus⟩
    by_cases hc : pri (taskKey t) ≥ pri (taskKey u)
    · rw [if_pos hc]
      refine List.pairwise_cons.mpr ⟨?_, hl⟩
      intro x hx
      rcases List.mem_cons.mp hx with hx | hx
      · rw [hx]
        exact hc
      · exact le_trans (hu x hx) hc
    · rw [if_neg hc]
      refine List.pairwise_cons.mpr ⟨?_, ih hus⟩
      intro x hx
      rcases (mem_insertByPriority pri t x us).mp hx with hx | hx
      · rw [hx]
        exact le_of_lt (lt_of_not_ge hc)
      · exact hu x hx

lemma sortByPriorityDesc_pairwise (pri : String → Int) :
    ∀ l : List Task,
      (sortByPriorityDesc pri l).Pairwise (fun a b => pri (taskKey b) ≤ pri (taskKey a)) := by
  intro l
  induction l with
  | nil => exact List.Pairwise.nil
  | cons t ts ih => exact insertByPriority_pairwise pri t _ ih

lemma insertByPriority_filter_eq (pri : String → Int) (p : Int) (t : Task) (l : List Task) :
    (insertByPriority pri t l).filter (fun u => decide (pri (taskKey u) = p))
      = if pri (taskKey t) = p then
          t :: l.filter (fun u => decide (pri (taskKey u) = p))
        else l.filter (fun u => decide (pri (taskKey u) = p)) := by
  induction l with
  | nil =>
    by_cases hp : pri (taskKey t) = p
    · simp [insertByPriority, hp]
    · simp [insertByPriority, hp]
  | cons u us ih =>
    rw [insertByPriority]
    by_cases hc : pri (taskKey t) ≥ pri (taskKey u)
    · rw [if_pos hc]
      by_cases hp : pri (taskKey t) = p
      · simp [List.filter_cons, hp]
      · simp [List.filter_cons, hp]
    · rw [if_neg hc]
      by_cases hp : pri (taskKey t) = p
      · have hu : ¬ pri (taskKey u) = p := by
          intro hup
          exact hc (ge_of_eq (hp.trans hup.symm))
        simp [List.filter_cons, hu, ih, hp]
      · simp [List.filter_cons, ih, hp]

lemma sortByPriorityDesc_filter_eq (pri : String → Int) (p : Int) :
    ∀ l : List Task,
      (sortByPriorityDesc pri l).filter (fun u => decide (pri (taskKey u) = p))
        = l.filter (fun u => decide (pri (taskKey u) = p)) := by
  intro l
  induction l with
  | nil => rfl
  | cons t ts ih =>
    rw [sortByPriorityDesc, insertByPriority_filter_eq, List.filter_cons]
    by_cases hp : pri (taskKey t) = p
    · simp [hp, ih]
    · simp [hp, ih]

lemma mem_scanPhase (deps : String → List String) (completed : List String) :
    ∀ (ts : List Task) (inProgress : List String) (x : Task),
      x ∈ scanPhase deps completed ts inProgress →
      x ∈ ts ∧ taskKey x ∉ completed ∧ ∀ d ∈ deps (taskKey x), d ∈ completed := by
  intro ts
  induction ts with
  | nil =>
    intro inProgress x hx
    exact absurd hx (List.not_mem_nil x)
  | cons t rest ih =>
    intro inProgress x hx
    rw [scanPhase] at hx
    by_cases h1 : taskKey t ∈ completed ∨ taskKey t ∈ inProgress
    · rw [if_pos h1] at hx
      have := ih inProgress x hx
      exact ⟨List.mem_cons_of_mem t this.1, this.2⟩
    · rw [if_neg h1] at hx
      by_cases h2 : ∀ d ∈ deps (taskKey t), d ∈ completed
      · rw [if_pos h2] at hx
        rcases List.mem_cons.mp hx with hx | hx
        · subst hx
          exact ⟨List.mem_cons_self x rest, fun hc => h1 (Or.inl hc), h2⟩
        · have := ih (taskKey t :: inProgress) x hx
          exact ⟨List.mem_cons_of_mem t this.1, this.2⟩
      · rw [if_neg h2] at hx
        have := ih inProgress x hx
        exact ⟨List.mem_cons_of_mem t this.1, this.2⟩

lemma scanPhase_sublist (deps : String → List String) (completed : List String) :
    ∀ (ts : List Task) (inProgress : List String),
      (scanPhase deps completed ts inProgress).Sublist ts := by
  intro ts
  induction ts with
  | nil =>
    intro inProgress
    exact List.Sublist.refl []
  | cons t rest ih =>
    intro inProgress
    rw [scanPhase]
    by_cases h1 : taskKey t ∈ completed ∨ taskKey t ∈ inProgress
    · rw [if_pos h1]
      exact (ih inProgress).cons t
    · rw [if_neg h1]
      by_cases h2 : ∀ d ∈ deps (taskKey t), d ∈ completed
      · rw [if_pos h2]
        exact (ih (taskKey t :: inProgress)).cons₂ t
      · rw [if_neg h2]
        exact (ih inProgress).cons t

lemma scanPhase_eq_filter (deps : String → List String) (completed : List String) :
    ∀ (ts : List Task) (inProgress : List String),
      (ts.map taskKey).Nodup → (∀ u ∈ ts, taskKey u ∉ inProgress) →
      scanPhase deps completed ts inProgress
        = ts.filter (fun t =>
            decide (taskKey t ∉ completed ∧ ∀ d ∈ deps (taskKey t), d ∈ completed)) := by
  intro ts
  induction ts with
  | nil =>
    intro inProgress _ _
    rfl
  | cons t rest ih =>
    intro inProgress hnd hin
    have hndr : (rest.map taskKey).Nodup := by
      rw [List.map_cons, List.nodup_cons] at hnd
      exact hnd.2
    have hkey : taskKey t ∉ rest.map taskKey := by
      rw [List.map_cons, List.nodup_cons] at hnd
      exact hnd.1
    rw [scanPhase, List.filter_cons]
    by_cases h1 : taskKey t ∈ completed ∨ taskKey t ∈ inProgress
    · have h1c : taskKey t ∈ completed := by
        rcases h1 with h | h
        · exact h
        · exact absurd h (hin t (List.mem_cons_self t rest))
      rw [if_pos h1]
      have hpred : decide (taskKey t ∉ completed ∧ ∀ d ∈ deps (taskKey t), d ∈ completed)
          = false := by
        simp [h1c]
      rw [hpred]
      simp only [Bool.false_eq_true, if_false]
      exact ih inProgress hndr (fun u hu => hin u (List.mem_cons_of_mem t hu))
    · rw [if_neg h1]
      have h1c : taskKey t ∉ completed := fun hc => h1 (Or.inl hc)
      by_cases h2 : ∀ d ∈ deps (taskKey t), d ∈ completed
      · rw [if_pos h2]
        have hpred : decide (taskKey t ∉ completed ∧ ∀ d ∈ deps (taskKey t), d ∈ completed)
            = true := by
          simp only [decide_eq_true_eq]
          exact ⟨h1c, h2⟩
        rw [hpred]
        simp only [if_true]
        have hin2 : ∀ u ∈ rest, taskKey u ∉ taskKey t :: inProgress := by
          intro u hu
          rw [List.mem_cons]
          rintro (hc | hc)
          · exact hkey (hc ▸ List.mem_map_of_mem taskKey hu)
          · exact hin u (List.mem_cons_of_mem t hu) hc
        rw [ih (taskKey t :: inProgress) hndr hin2]
      · rw [if_neg h2]
        have hpred : decide (taskKey t ∉ completed ∧ ∀ d ∈ deps (taskKey t), d ∈ completed)
            = false := by
          simp only [decide_eq_false_iff_not]
          rintro ⟨-, hc⟩
          exact h2 hc
        rw [hpred]
        simp only [Bool.false_eq_true, if_false]
        exact ih inProgress hndr (fun u hu => hin u (List.mem_cons_of_mem t hu))

lemma buildPhasesAux_depsEarlier (deps : String → List String) (pri : String → Int)
    (tasks : List Task) :
    ∀ (fuel : Nat) (completed : List String) (i : Nat) (t : Task),
      t ∈ (buildPhasesAux deps pri tasks fuel completed).getD i [] →
      ∀ d ∈ deps (taskKey t),
        d ∈ completed ∨ ∃ j, j < i ∧
          d ∈ ((buildPhasesAux deps pri tasks fuel completed).getD j []).map taskKey := by
  intro fuel
  induction fuel with
  | zero =>
    intro completed i t ht
    rw [buildPhasesAux] at ht
    simp [List.getD] at ht
  | succ fuel ih =>
    intro completed i t ht d hd
    rw [buildPhasesAux] at ht ⊢
    by_cases hguard : tasks.length ≤ completed.length
    · rw [if_pos hguard] at ht
      simp [List.getD] at ht
    · rw [if_neg hguard] at ht ⊢
      cases hscan : scanPhase deps completed tasks [] with
      | nil =>
        rw [hscan] at ht
        simp [List.getD] at ht
      | cons s ss =>
        rw [hscan] at ht
        simp only at ht ⊢
        cases i with
        | zero =>
          rw [List.getD_cons_zero] at ht
          have hts : t ∈ scanPhase deps completed tasks [] := by
            rw [hscan]
            exact (sortByPriorityDesc_perm pri (s :: ss)).mem_iff.mp ht
          exact Or.inl ((mem_scanPhase deps completed tasks [] t hts).2.2 d hd)
        | succ i =>
          rw [List.getD_cons_succ] at ht
          rcases ih (completed ++ (sortByPriorityDesc pri (s :: ss)).map taskKey) i t ht d hd
            with hc | ⟨j, hj, hmem⟩
          · rcases List.mem_append.mp hc with hc | hc
            · exact Or.inl hc
            · refine Or.inr ⟨0, Nat.succ_pos i, ?_⟩
              rw [List.getD_cons_zero]
              exact hc
          · refine Or.inr ⟨j + 1, Nat.succ_lt_succ hj, ?_⟩
            rw [List.getD_cons_succ]
            exact hmem

lemma mem_buildPhasesAux (deps : String → List String) (pri : String → Int)
    (tasks : List Task) :
    ∀ (fuel : Nat) (completed : List String) (phase : List Task),
      phase ∈ buildPhasesAux deps pri tasks fuel completed →
      ∃ scanned : List Task, scanned.Sublist tasks ∧ phase = sortByPriorityDesc pri scanned := by
  intro fuel
  induction fuel with
  | zero =>
    intro completed phase hp
    rw [buildPhasesAux] at hp
    exact absurd hp (List.not_mem_nil phase)
  | succ fuel ih =>
    intro completed phase hp
    rw [buildPhasesAux] at hp
    by_cases hguard : tasks.length ≤ completed.length
    · rw [if_pos hguard] at hp
      exact absurd hp (List.not_mem_nil phase)
    · rw [if_neg hguard] at hp
      cases hscan : scanPhase deps completed tasks [] with
      | nil =>
        rw [hscan] at hp
        exact absurd hp (List.not_mem_nil phase)
      | cons s ss =>
        rw [hscan] at hp
        simp only at hp
        rcases List.mem_cons.mp hp with hp | hp
        · refine ⟨s :: ss, ?_, hp⟩
          rw [← hscan]
          exact scanPhase_sublist deps completed tasks []
        · exact ih _ phase hp

lemma filter_split_perm {α : Type} (p q : α → Bool) :
    ∀ l : List α,
      (l.filter p).Perm
        (l.filter (fun a => p a && q a) ++ l.filter (fun a => p a && !q a)) := by
  intro l
  induction l with
  | nil => exact List.Perm.refl _
  | cons a l ih =>
    by_cases hp : p a
    · by_cases hq : q a
      · simp only [List.filter_cons, hp, hq, Bool.and_self, Bool.not_true, Bool.and_false,
          if_true, Bool.true_and]
        simpa using ih.cons a
      · have hq' : q a = false := Bool.eq_false_iff.mpr hq
        simp only [List.filter_cons, hp, hq', Bool.and_false, Bool.not_false, Bool.and_true,
          Bool.true_and, if_true]
        simp only [Bool.false_eq_true, if_false]
        exact (ih.cons a).trans (List.perm_middle.symm)
    · have hp' : p a = false := Bool.eq_false_iff.mpr hp
      simp only [List.filter_cons, hp', Bool.false_and, Bool.false_eq_true, if_false]
      exact ih

lemma buildPhasesAux_flatten_perm (deps : String → List String) (pri : String → Int)
    (tasks : List Task)
    (hnd : (tasks.map taskKey).Nodup)
    (hclosed : ∀ t ∈ tasks, ∀ d ∈ deps (taskKey t), d ∈ tasks.map taskKey)
    (hacyc : ∀ S ∈ (tasks.map taskKey).sublists, S ≠ [] →
      ∃ k ∈ S, ∀ d ∈ deps k, d ∉ S) :
    ∀ (fuel : Nat) (completed : List String),
      completed.Nodup → (∀ k ∈ completed, k ∈ tasks.map taskKey) →
      (tasks.filter (fun t => decide (taskKey t ∉ completed))).length ≤ fuel →
      ((buildPhasesAux deps pri tasks fuel completed).flatten).Perm
        (tasks.filter (fun t => decide (taskKey t ∉ completed))) := by
  intro fuel
  induction fuel with
  | zero =>
    intro completed hcnd hcsub hlen
    rw [buildPhasesAux]
    rw [List.length_eq_zero.mp (Nat.le_zero.mp hlen)]
    exact List.Perm.refl _
  | succ fuel ih =>
    intro completed hcnd hcsub hlen
    rw [buildPhasesAux]
    by_cases hguard : tasks.length ≤ completed.length
    · rw [if_pos hguard]
      have hperm : completed.Perm (tasks.map taskKey) :=
        (List.subperm_of_subset hcnd hcsub).perm_of_length_le
          (by rw [List.length_map]; exact hguard)
      have hfe : tasks.filter (fun t => decide (taskKey t ∉ completed)) = [] := by
        rw [List.filter_eq_nil_iff]
        intro t ht
        simp only [decide_eq_true_eq, not_not]
        exact hperm.mem_iff.mpr (List.mem_map_of_mem taskKey ht)
      rw [hfe]
      exact List.Perm.refl _
    · rw [if_neg hguard]
      push_neg at hguard
      have hscan_eq : scanPhase deps completed tasks []
          = tasks.filter (fun t =>
              decide (taskKey t ∉ completed ∧ ∀ d ∈ deps (taskKey t), d ∈ completed)) :=
        scanPhase_eq_filter deps completed tasks [] hnd
          (fun u _ => List.not_mem_nil (taskKey u))
      have hex : ∃ k, k ∈ tasks.map taskKey ∧ k ∉ completed := by
        by_contra hcon
        push_neg at hcon
        have hsub2 : tasks.map taskKey ⊆ completed := fun k hk => hcon k hk
        have := (List.subperm_of_subset hnd hsub2).length_le
        rw [List.length_map] at this
        omega
      have hprog : ∃ t0 ∈ tasks,
          taskKey t0 ∉ completed ∧ ∀ d ∈ deps (taskKey t0), d ∈ completed := by
        rcases hex with ⟨k, hk1, hk2⟩
        have hSne : (tasks.map taskKey).filter (fun k => decide (k ∉ completed)) ≠ [] := by
          intro hnil
          have hkmem : k ∈ (tasks.map taskKey).filter (fun k => decide (k ∉ completed)) :=
            List.mem_filter.mpr ⟨hk1, by simpa using hk2⟩
          rw [hnil] at hkmem
          exact List.not_mem_nil k hkmem
        have hSsub : (tasks.map taskKey).filter (fun k => decide (k ∉ completed))
            ∈ (tasks.map taskKey).sublists :=
          List.mem_sublists.mpr (List.filter_sublist (tasks.map taskKey))
        rcases hacyc _ hSsub hSne with ⟨k0, hk0S, hk0deps⟩
        have hk0 := List.mem_filter.mp hk0S
        rcases List.mem_map.mp hk0.1 with ⟨t0, ht0, hkey0⟩
        refine ⟨t0, ht0, by rw [hkey0]; simpa using hk0.2, ?_⟩
        intro d hd
        have hdkeys : d ∈ tasks.map taskKey := hclosed t0 ht0 d hd
        have hdS : d ∉ (tasks.map taskKey).filter (fun k => decide (k ∉ completed)) :=
          hk0deps d (by rw [← hkey0]; exact hd)
        by_contra hdc
        exact hdS (List.mem_filter.mpr ⟨hdkeys, by simpa using hdc⟩)
      have hscan_ne : scanPhase deps completed tasks [] ≠ [] := by
        rcases hprog with ⟨t0, ht0, h1, h2⟩
        intro hnil
        have : t0 ∈ scanPhase deps completed tasks [] := by
          rw [hscan_eq]
          refine List.mem_filter.mpr ⟨ht0, ?_⟩
          simp only [decide_eq_true_eq]
          exact ⟨h1, h2⟩
        rw [hnil] at this
        exact List.not_mem_nil t0 this
      cases hscan : scanPhase deps completed tasks [] with
      | nil => exact absurd hscan hscan_ne
      | cons s ss =>
        simp only [List.flatten_cons]
        have hscanned_eq : s :: ss = tasks.filter (fun t =>
            decide (taskKey t ∉ completed ∧ ∀ d ∈ deps (taskKey t), d ∈ completed)) :=
          hscan.symm.trans hscan_eq
        have hsortperm : (sortByPriorityDesc pri (s :: ss)).Perm (s :: ss) :=
          sortByPriorityDesc_perm pri (s :: ss)
        have hkeyiff : ∀ t ∈ tasks,
            (taskKey t ∈ (sortByPriorityDesc pri (s :: ss)).map taskKey
              ↔ taskKey t ∉ completed ∧ ∀ d ∈ deps (taskKey t), d ∈ completed) := by
          intro t ht
          constructor
          · intro hmem
            have hmem2 : taskKey t ∈ (s :: ss).map taskKey :=
              (hsortperm.map taskKey).mem_iff.mp hmem
            rcases List.mem_map.mp hmem2 with ⟨u, hu, hku⟩
            have hu2 : u ∈ scanPhase deps completed tasks [] := by
              rw [hscan]
              exact hu
            have := mem_scanPhase deps completed tasks [] u hu2
            exact ⟨hku ▸ this.2.1, hku ▸ this.2.2⟩
          · intro hprops
            have : t ∈ s :: ss := by
              rw [hscanned_eq]
              refine List.mem_filter.mpr ⟨ht, ?_⟩
              simp only [decide_eq_true_eq]
              exact hprops
            exact (hsortperm.map taskKey).mem_iff.mpr (List.mem_map_of_mem taskKey this)
        have hfresh : ∀ k ∈ (sortByPriorityDesc pri (s :: ss)).map taskKey, k ∉ completed := by
          intro k hk
          rcases List.mem_map.mp ((hsortperm.map taskKey).mem_iff.mp hk) with ⟨u, hu, hku⟩
          have hu2 : u ∈ scanPhase deps completed tasks [] := by
            rw [hscan]
            exact hu
          exact hku ▸ (mem_scanPhase deps completed tasks [] u hu2).2.1
        have hkeysin : ∀ k ∈ (sortByPriorityDesc pri (s :: ss)).map taskKey,
            k ∈ tasks.map taskKey := by
          intro k hk
          rcases List.mem_map.mp ((hsortperm.map taskKey).mem_iff.mp hk) with ⟨u, hu, hku⟩
          have hu2 : u ∈ scanPhase deps completed tasks [] := by
            rw [hscan]
            exact hu
          exact hku ▸ List.mem_map_of_mem taskKey (mem_scanPhase deps completed tasks [] u hu2).1
        have hscansub : (s :: ss).Sublist tasks := by
          rw [← hscan]
          exact scanPhase_sublist deps completed tasks []
        have hsortnodup : ((sortByPriorityDesc pri (s :: ss)).map taskKey).Nodup :=
          ((hsortperm.map taskKey).nodup_iff).mpr ((hscansub.map taskKey).nodup hnd)
        have hcnd2 : (completed ++ (sortByPriorityDesc pri (s :: ss)).map taskKey).Nodup :=
          hcnd.append hsortnodup (fun k hk1 hk2 => hfresh k hk2 hk1)
        have hcsub2 : ∀ k ∈ completed ++ (sortByPriorityDesc pri (s :: ss)).map taskKey,
            k ∈ tasks.map taskKey := by
          intro k hk
          rcases List.mem_append.mp hk with hk | hk
          · exact hcsub k hk
          · exact hkeysin k hk
        have hpointwise : ∀ t ∈ tasks,
            decide (taskKey t ∉ completed ++ (sortByPriorityDesc pri (s :: ss)).map taskKey)
              = (decide (taskKey t ∉ completed)
                  && !decide (∀ d ∈ deps (taskKey t), d ∈ completed)) := by
          intro t ht
          rw [← decide_not, ← Bool.decide_and, decide_eq_decide]
          rw [List.mem_append]
          constructor
          · intro hc
            push_neg at hc
            refine ⟨hc.1, ?_⟩
            intro hq
            exact (hkeyiff t ht).mpr ⟨hc.1, hq⟩ |> hc.2
          · rintro ⟨h1, h2⟩
            rintro (hc | hc)
            · exact h1 hc
            · exact h2 ((hkeyiff t ht).mp hc).2
        have hfilter2 : tasks.filter (fun t =>
              decide (taskKey t ∉ completed ++ (sortByPriorityDesc pri (s :: ss)).map taskKey))
            = tasks.filter (fun t => decide (taskKey t ∉ completed)
                && !decide (∀ d ∈ deps (taskKey t), d ∈ completed)) :=
          List.filter_congr hpointwise
        have hfilter1 : tasks.filter (fun t => decide (taskKey t ∉ completed)
              && decide (∀ d ∈ deps (taskKey t), d ∈ completed)) = s :: ss := by
          rw [hscanned_eq]
          refine List.filter_congr ?_
          intro t _
          exact (Bool.decide_and _ _).symm
        have hsplit : (tasks.filter (fun t => decide (taskKey t ∉ completed))).Perm
            ((s :: ss) ++ tasks.filter (fun t =>
              decide (taskKey t ∉ completed ++ (sortByPriorityDesc pri (s :: ss)).map taskKey))) := by
          have h : (tasks.filter (fun t => decide (taskKey t ∉ completed))).Perm
              (tasks.filter (fun t => decide (taskKey t ∉ completed)
                  && decide (∀ d ∈ deps (taskKey t), d ∈ completed))
                ++ tasks.filter (fun t => decide (taskKey t ∉ completed)
                  && !decide (∀ d ∈ deps (taskKey t), d ∈ completed))) :=
            filter_split_perm _ _ tasks
          rw [hfilter1, ← hfilter2] at h
          exact h
        have hlen2 : (tasks.filter (fun t =>
              decide (taskKey t ∉ completed
                ++ (sortByPriorityDesc pri (s :: ss)).map taskKey))).length ≤ fuel := by
          have hlensplit := hsplit.length_eq
          rw [List.length_append, List.length_cons] at hlensplit
          omega
        have hrest := ih (completed ++ (sortByPriorityDesc pri (s :: ss)).map taskKey)
          hcnd2 hcsub2 hlen2
        exact (hsortperm.append hrest).trans hsplit.symm

/-- C1 counterexample: on the input [T1, T2, T3] with the cyclic map
T1 -> T2 -> T1 (T3 independent), buildExecutionPlan logs a warning, breaks,
and returns the nonempty partial plan [[T3]]: a phase IS produced for a
cyclic input, T1 and T2 are silently dropped, and no error naming them is
raised (the source contains no throw on this path). -/
theorem buildExecutionPlan_cycle_counterexample :
    buildExecutionPlan [taskT1, taskT2, taskT3] depsB priZero = [[taskT3]] ∧
    buildExecutionPlan [taskT1, taskT2, taskT3] depsB priZero ≠ [] := by
  exact ⟨by decide, by decide⟩

/-- C1 amended: on a cyclic or unresolvable input, buildExecutionPlan still
terminates (the loop breaks on the first empty scan) but raises no error:
it silently returns the partial plan of the phases built so far — empty for
the pure two-cycle of scenario B — and every task that does appear in a
phase has each of its dependencies placed in a strictly earlier phase, so
no phase ever contains a blocked task. -/
theorem buildExecutionPlan_cycle_behavior :
    (∀ (tasks : List Task) (deps : String → List String) (pri : String → Int)
        (i : Nat) (t : Task),
      t ∈ (buildExecutionPlan tasks deps pri).getD i [] →
      ∀ d ∈ deps (taskKey t), ∃ j, j < i ∧
        d ∈ ((buildExecutionPlan tasks deps pri).getD j []).map taskKey) ∧
    buildExecutionPlan [taskT1, taskT2] depsB priZero = [] := by
  constructor
  · intro tasks deps pri i t ht d hd
    rcases buildPhasesAux_depsEarlier deps pri tasks tasks.length [] i t ht d hd with hc | hc
    · exact absurd hc (List.not_mem_nil d)
    · exact hc
  · decide

/-- Witness for the amended C1 theorem, at the acyclic scenario A input:
T2 sits in phase 1 and its dependency T1 is placed in phase 0. -/
theorem buildExecutionPlan_cycle_behavior_witness :
    (taskT2 ∈ (buildExecutionPlan [taskT1, taskT2, taskT3] depsA priA).getD 1 []) ∧
    ("T1" ∈ depsA (taskKey taskT2)) ∧
    (∃ j, j < 1 ∧ "T1" ∈
      ((buildExecutionPlan [taskT1, taskT2, taskT3] depsA priA).getD j []).map taskKey) :=
  ⟨by decide, by decide,
    buildExecutionPlan_cycle_behavior.1 [taskT1, taskT2, taskT3] depsA priA 1 taskT2
      (by decide) "T1" (by decide)⟩

/-- C2: for a well-formed task list (distinct keys), whose dependency map
mentions only keys of the list and is acyclic (every nonempty subset of the
keys contains a key none of whose dependencies stays in the subset — the
finite-graph formulation of acyclicity), the phases of buildExecutionPlan
concatenate to a permutation of the input task list (every task in exactly
one phase, none omitted, none duplicated) and every dependency of every
placed task lies in a strictly earlier phase. -/
theorem buildExecutionPlan_acyclic_partition (tasks : List Task)
    (deps : String → List String) (pri : String → Int)
    (hnd : (tasks.map taskKey).Nodup)
    (hclosed : ∀ t ∈ tasks, ∀ d ∈ deps (taskKey t), d ∈ tasks.map taskKey)
    (hacyc : ∀ S ∈ (tasks.map taskKey).sublists, S ≠ [] →
      ∃ k ∈ S, ∀ d ∈ deps k, d ∉ S) :
    ((buildExecutionPlan tasks deps pri).flatten).Perm tasks ∧
    (∀ (i : Nat) (t : Task), t ∈ (buildExecutionPlan tasks deps pri).getD i [] →
      ∀ d ∈ deps (taskKey t), ∃ j, j < i ∧
        d ∈ ((buildExecutionPlan tasks deps pri).getD j []).map taskKey) := by
  constructor
  · have hfe : tasks.filter (fun t => decide (taskKey t ∉ ([] : List String))) = tasks := by
      have : ∀ t ∈ tasks, decide (taskKey t ∉ ([] : List String)) = true := by
        intro t _
        simp
      rw [List.filter_congr this, List.filter_true]
    have h := buildPhasesAux_flatten_perm deps pri tasks hnd hclosed hacyc tasks.length []
      List.nodup_nil (fun k hk => absurd hk (List.not_mem_nil k))
      (by rw [hfe])
    rw [hfe] at h
    exact h
  · intro i t ht d hd
    rcases buildPhasesAux_depsEarlier deps pri tasks tasks.length [] i t ht d hd with hc | hc
    · exact absurd hc (List.not_mem_nil d)
    · exact hc

/-- Witness for the acyclic-partition theorem at the scenario A input. -/
theorem buildExecutionPlan_acyclic_partition_witness :
    (([taskT1, taskT2, taskT3].map taskKey).Nodup ∧
      (∀ t ∈ [taskT1, taskT2, taskT3], ∀ d ∈ depsA (taskKey t),
        d ∈ [taskT1, taskT2, taskT3].map taskKey) ∧
      (∀ S ∈ ([taskT1, taskT2, taskT3].map taskKey).sublists, S ≠ [] →
        ∃ k ∈ S, ∀ d ∈ depsA k, d ∉ S)) ∧
    (((buildExecutionPlan [taskT1, taskT2, taskT3] depsA priA).flatten).Perm
        [taskT1, taskT2, taskT3] ∧
      (∀ (i : Nat) (t : Task),
        t ∈ (buildExecutionPlan [taskT1, taskT2, taskT3] depsA priA).getD i [] →
        ∀ d ∈ depsA (taskKey t), ∃ j, j < i ∧
          d ∈ ((buildExecutionPlan [taskT1, taskT2, taskT3] depsA priA).getD j []).map
            taskKey)) :=
  ⟨⟨by decide, by decide, by decide⟩,
    buildExecutionPlan_acyclic_partition [taskT1, taskT2, taskT3] depsA priA
      (by decide) (by decide) (by decide)⟩

/-- C8: every phase of every plan is ordered by descending priority
(priority[key] || 0), and the order is stable: for each priority value, the
tasks of the phase carrying that priority form a subsequence of the
original task list, i.e. ties keep submission order.  On scenario A —
tasks [T1, T2, T3], T2 depending on T1, priorities T1:5, T2:5, T3:9 —
the plan is [[T3, T1], [T2]]. -/
theorem buildExecutionPlan_phase_order :
    (∀ (tasks : List Task) (deps : String → List String) (pri : String → Int)
        (phase : List Task), phase ∈ buildExecutionPlan tasks deps pri →
      phase.Pairwise (fun a b => pri (taskKey b) ≤ pri (taskKey a)) ∧
      ∀ p : Int, (phase.filter (fun t => decide (pri (taskKey t) = p))).Sublist tasks) ∧
    buildExecutionPlan [taskT1, taskT2, taskT3] depsA priA = [[taskT3, taskT1], [taskT2]] := by
  constructor
  · intro tasks deps pri phase hp
    rcases mem_buildPhasesAux deps pri tasks tasks.length [] phase hp with ⟨scanned, hsub, rfl⟩
    refine ⟨sortByPriorityDesc_pairwise pri scanned, ?_⟩
    intro p
    rw [sortByPriorityDesc_filter_eq]
    exact (List.filter_sublist scanned).trans hsub
  · decide

/-- Witness for the phase-order theorem at the first phase of scenario A. -/
theorem buildExecutionPlan_phase_order_witness :
    ([taskT3, taskT1] ∈ buildExecutionPlan [taskT1, taskT2, taskT3] depsA priA) ∧
    (([taskT3, taskT1] : List Task).Pairwise
        (fun a b => priA (taskKey b) ≤ priA (taskKey a)) ∧
      ∀ p : Int, (([taskT3, taskT1] : List Task).filter
        (fun t => decide (priA (taskKey t) = p))).Sublist [taskT1, taskT2, taskT3]) :=
  ⟨by decide,
    buildExecutionPlan_phase_order.1 [taskT1, taskT2, taskT3] depsA priA
      [taskT3, taskT1] (by decide)⟩

lemma updatePerformance_completed (p : Performance) (t : Rat) (s : Bool) :
    (updatePerformance p t s).tasksCompleted = p.tasksCompleted + 1 := rfl

lemma updatePerformance_sum (p : Performance) (t : Rat) (s : Bool) :
    (updatePerformance p t s).tasksSuccessful + (updatePerformance p t s).tasksFailed
      = p.tasksSuccessful + p.tasksFailed + 1 := by
  unfold updatePerformance
  cases s <;> simp <;> omega

lemma updatePerformance_avg (p : Performance) (t : Rat) (s : Bool) :
    (updatePerformance p t s).avgExecutionTime * (updatePerformance p t s).tasksCompleted
      = p.avgExecutionTime * p.tasksCompleted + t := by
  unfold updatePerformance
  have hn : ((p.tasksCompleted + 1 : Nat) : Rat) ≠ 0 := by
    push_cast
    positivity
  simp only
  rw [div_mul_cancel₀ _ hn]
  push_cast
  ring

lemma runAttempts_spec (samples : List (Rat × Bool)) (p : Performance) :
    (runAttempts samples p).tasksCompleted = p.tasksCompleted + samples.length ∧
    (runAttempts samples p).tasksSuccessful + (runAttempts samples p).tasksFailed
      = p.tasksSuccessful + p.tasksFailed + samples.length ∧
    (runAttempts samples p).avgExecutionTime * (runAttempts samples p).tasksCompleted
      = p.avgExecutionTime * p.tasksCompleted + (samples.map Prod.fst).sum := by
  induction samples generalizing p with
  | nil => simp [runAttempts]
  | cons s rest ih =>
    have h := ih (updatePerformance p s.1 s.2)
    have hc := updatePerformance_completed p s.1 s.2
    have hs := updatePerformance_sum p s.1 s.2
    have ha := updatePerformance_avg p s.1 s.2
    simp only [runAttempts, List.foldl_cons, List.length_cons, List.map_cons,
      List.sum_cons] at h ⊢
    refine ⟨?_, ?_, ?_⟩
    · rw [h.1, hc]
      omega
    · rw [h.2.1, hs]
      omega
    · rw [h.2.2, ha]
      ring

/-- C10: every executed attempt in BaseAgent, successful or failed,
increments performance.tasksCompleted; consequently after any sequence of
attempts tasksCompleted = tasksSuccessful + tasksFailed, tasksCompleted
counts attempts rather than successes, and avgExecutionTime is the running
mean of the execution times of all attempts, failures included. -/
theorem updatePerformance_counts_attempts :
    (∀ (p : Performance) (t : Rat) (s : Bool),
      (updatePerformance p t s).tasksCompleted = p.tasksCompleted + 1) ∧
    (∀ samples : List (Rat × Bool),
      (runAttempts samples initialPerformance).tasksCompleted = samples.length ∧
      (runAttempts samples initialPerformance).tasksCompleted
        = (runAttempts samples initialPerformance).tasksSuccessful
          + (runAttempts samples initialPerformance).tasksFailed ∧
      (runAttempts samples initialPerformance).avgExecutionTime
          * (runAttempts samples initialPerformance).tasksCompleted
        = (samples.map Prod.fst).sum) := by
  constructor
  · exact updatePerformance_completed
  · intro samples
    have h := runAttempts_spec samples initialPerformance
    simp only [initialPerformance] at h ⊢
    refine ⟨?_, ?_, ?_⟩
    · have := h.1
      omega
    · have h1 := h.1
      have h2 := h.2.1
      omega
    · have := h.2.2
      simpa using this

/-- C4: conflict resolution is a pure function of the party priority and the
threshold 7: "ours" (favor the local changes) exactly when priority > 7,
"theirs" (favor the incoming changes) otherwise; priority 9 gives "ours"
and priority 4 gives "theirs". -/
theorem resolveConflict_spec :
    (∀ p : Int, (resolveConflict p = "ours" ↔ 7 < p) ∧
      (resolveConflict p = "theirs" ↔ ¬ 7 < p)) ∧
    resolveConflict 9 = "ours" ∧ resolveConflict 4 = "theirs" := by
  refine ⟨?_, by decide, by decide⟩
  intro p
  by_cases hp : 7 < p
  · rw [resolveConflict, if_pos hp]
    exact ⟨⟨fun _ => hp, fun _ => rfl⟩,
      ⟨fun h => absurd h (by decide), fun h => absurd hp h⟩⟩
  · rw [resolveConflict, if_neg hp]
    exact ⟨⟨fun h => absurd h (by decide), fun h => absurd h hp⟩,
      ⟨fun _ => hp, fun _ => rfl⟩⟩

end Nublado
